import Mathlib

/-!
Shallow embedding of the `tr-simple` pipeline (chunk.py, process.py, rebuild.py).

Texts are modelled as `List Char` (Python `str` is a sequence of code points);
machine integers are `Nat`.  Python's `int(chunk_size * 0.5)` is modelled as
`chunk_size / 2` (floor), which is the value the source computes for every
budget a float represents exactly.  `str.rfind(c, s, e)` returns the greatest
index `i` with `s ≤ i < e` holding `c`, or `-1`; we return `Option Nat`.
-/

/-- Python `text.rfind(c, s, s + k)`: scan indices `s+k-1, …, s` downward,
returning the first (i.e. greatest) index holding `c`. -/
def rfindFrom (text : List Char) (c : Char) (s : Nat) : Nat → Option Nat
  | 0 => none
  | k+1 => if text[s+k]? = some c then some (s+k) else rfindFrom text c s k

/-- Python `text.rfind(c, s, e)` (with `-1` rendered as `none`). -/
def rfind (text : List Char) (c : Char) (s e : Nat) : Option Nat :=
  rfindFrom text c s (e - s)

/-- chunk.py line 31: `search_start = max(start, end - int(chunk_size * 0.5))`
with `end = start + chunk_size`. -/
def searchLo (chunk_size start : Nat) : Nat :=
  max start (start + chunk_size - chunk_size / 2)

/-- The body of the `else` branch of `chunk_text`'s loop in chunk.py
(lines 26–52): the cut position chosen when the remaining text is longer
than the budget.  `best_break = end` unless a boundary is found in the
window `[search_start, end)`, trying newline, then period, then comma,
then space, cutting right after the found character. -/
def bestBreak (text : List Char) (chunk_size start : Nat) : Nat :=
  match rfind text '\n' (searchLo chunk_size start) (start + chunk_size) with
  | some p => p + 1
  | none =>
  match rfind text '.' (searchLo chunk_size start) (start + chunk_size) with
  | some p => p + 1
  | none =>
  match rfind text ',' (searchLo chunk_size start) (start + chunk_size) with
  | some p => p + 1
  | none =>
  match rfind text ' ' (searchLo chunk_size start) (start + chunk_size) with
  | some p => p + 1
  | none => start + chunk_size

/-- The `while start < len(text)` loop of `chunk_text`, with an explicit
fuel argument (the Python loop runs forever when `chunk_size = 0`; with
`chunk_size ≥ 1` a fuel of `text.length` is shown to be enough). -/
def chunkAux (text : List Char) (chunk_size : Nat) : Nat → Nat → List (List Char)
  | 0, _ => []
  | fuel+1, start =>
    if start < text.length then
      if text.length ≤ start + chunk_size then
        [text.drop start]
      else
        let bb := bestBreak text chunk_size start
        (text.drop start).take (bb - start) :: chunkAux text chunk_size fuel bb
    else []

/-- chunk.py `chunk_text(text, chunk_size)`. -/
def chunk_text (text : List Char) (chunk_size : Nat) : List (List Char) :=
  chunkAux text chunk_size text.length 0

/-! Spec-side definitions for the Segmenter (written from the spec's words,
to be compared with the code-side definitions above).

The spec describes the search window as `[max(start, ideal − budget·0.5),
ideal)`.  For an integer position `p` and integer budget `b`,
`ideal − b·0.5 ≤ p` holds iff `ideal − b/2 ≤ p` with `/` the floor
division (`2·p ≥ 2·ideal − b` iff `p ≥ ideal − ⌊b/2⌋`), so `searchLo` is
exactly the integer rendering of the spec's window bound. -/

/-- All positions in `[lo, hi)` holding character `c`, in ascending order. -/
def occsIn (text : List Char) (c : Char) (lo hi : Nat) : List Nat :=
  (List.range hi).filter (fun p => decide (lo ≤ p ∧ text[p]? = some c))

/-- The last (rightmost) occurrence of `c` in the window `[lo, hi)`. -/
def lastOcc (text : List Char) (c : Char) (lo hi : Nat) : Option Nat :=
  (occsIn text c lo hi).getLast?

/-- Spec-side cut point: the rightmost occurrence, within the window
`[max(start, ideal − budget·0.5), ideal)`, of the first boundary class in
the priority order newline > period > comma > space that occurs in the
window, cutting immediately after it; `ideal` when no class occurs. -/
def specCut (text : List Char) (chunk_size start : Nat) : Nat :=
  match lastOcc text '\n' (searchLo chunk_size start) (start + chunk_size) with
  | some p => p + 1
  | none =>
  match lastOcc text '.' (searchLo chunk_size start) (start + chunk_size) with
  | some p => p + 1
  | none =>
  match lastOcc text ',' (searchLo chunk_size start) (start + chunk_size) with
  | some p => p + 1
  | none =>
  match lastOcc text ' ' (searchLo chunk_size start) (start + chunk_size) with
  | some p => p + 1
  | none => start + chunk_size

/-- The four boundary classes of the Segmenter. -/
def boundaryChar (c : Char) : Bool :=
  c = '\n' || c = '.' || c = ',' || c = ' '

/-- Does any boundary character occur in the search window of the step
that starts at position `start`? -/
def hasBoundaryInWindow (text : List Char) (chunk_size start : Nat) : Bool :=
  (List.range (start + chunk_size)).any fun p =>
    decide (searchLo chunk_size start ≤ p) &&
      (match text[p]? with
       | some c => boundaryChar c
       | none => false)

/-! Shallow embedding of process.py and rebuild.py.

A chunk record of the persisted JSON file: `{index, text, status, result,
error}`.  `status` is a plain string in the source (compared against the
literals `"done"` / `"error"`), `result` and `error` are nullable strings. -/

structure Chunk where
  index : Nat
  text : String
  status : String
  result : Option String
  error : Option String
deriving DecidableEq, Inhabited

/-- Outcome of one call to the external text-generation service (§6 of the
spec: it returns an output text or fails with an error). -/
inductive ServiceResult where
  | ok (output : String)
  | err (msg : String)
deriving DecidableEq

/-- Python truthiness of a nullable string (`if result:`): `None` and the
empty string are falsy. -/
def truthy : Option String → Bool
  | none => false
  | some s => !s.isEmpty

/-- process.py `process_chunk` (lines 76–93), with the external service
call modelled by its outcome `o`: returns the `(result, error)` pair. -/
def process_chunk (o : ServiceResult) : Option String × Option String :=
  match o with
  | .ok t => (some t, none)
  | .err m => (none, some m)

/-- process.py lines 145–151: the per-chunk record update after one
service call.  Note `if result:` is Python truthiness, so an empty-string
service output takes the failure branch with `error = None`. -/
def stepChunk (o : ServiceResult) (c : Chunk) : Chunk :=
  match process_chunk o with
  | (result, error) =>
    if truthy result then { c with status := "done", result := result, error := none }
    else { c with status := "error", error := error }

/-- Mutable state of the processing loop: the chunk list, plus the
observable trace (service calls made, file saves performed) and the
tracker counters of process.py's `ProgressTracker`. -/
structure LoopState where
  chunks : List Chunk
  calls : List Nat
  saves : List (List Chunk)
  succCount : Nat
  failCount : Nat
  failedIdx : List Nat
deriving DecidableEq

/-- process.py lines 138–159: the `for idx, chunk_index in enumerate(pending_chunks)`
loop.  Each pending position is submitted once (recorded in `calls`), the
chunk record is updated via `stepChunk`, and the whole chunk list is saved
to disk immediately (recorded in `saves`). -/
def processPending (oracle : Nat → ServiceResult) : List Nat → LoopState → LoopState
  | [], st => st
  | i :: rest, st =>
    let o := oracle i
    let c' := stepChunk o (st.chunks.getD i default)
    let chunks' := st.chunks.set i c'
    processPending oracle rest
      { chunks := chunks'
        calls := st.calls ++ [i]
        saves := st.saves ++ [chunks']
        succCount := if truthy (process_chunk o).1 then st.succCount + 1 else st.succCount
        failCount := if truthy (process_chunk o).1 then st.failCount else st.failCount + 1
        failedIdx := if truthy (process_chunk o).1 then st.failedIdx else st.failedIdx ++ [i] }

/-- process.py lines 116–122: positions of the chunks whose status is not
`"done"`, in file order (`for i, chunk in enumerate(data['chunks'])`). -/
def pendingOf (chunks : List Chunk) : List Nat :=
  (List.range chunks.length).filter fun i => !((chunks.getD i default).status == "done")

/-- Number of chunks already `"done"` (process.py's `done_count`). -/
def doneCount (chunks : List Chunk) : Nat :=
  ((List.range chunks.length).filter fun i => (chunks.getD i default).status == "done").length

/-- Result of one `process_chunks` run: the exit code and the final loop
state (chunks, call/save traces, tracker counters). -/
structure RunOut where
  exit : Nat
  final : LoopState
deriving DecidableEq

/-- process.py `process_chunks` (lines 96–166).  The missing-API-key check
is modelled by the `hasKey` flag; the external service by `oracle`.
With no pending chunk the function prints "All chunks already processed!"
and returns 0 without creating a client call; otherwise it runs the loop
and returns 0. -/
def process_chunks (hasKey : Bool) (chunks : List Chunk) (oracle : Nat → ServiceResult) : RunOut :=
  if !hasKey then ⟨1, ⟨chunks, [], [], 0, 0, []⟩⟩
  else
    let pending := pendingOf chunks
    if pending.isEmpty then ⟨0, ⟨chunks, [], [], 0, 0, []⟩⟩
    else ⟨0, processPending oracle pending ⟨chunks, [], [], doneCount chunks, 0, []⟩⟩

/-- process.py `main` (lines 169–196): exit 1 when the JSON file does not
exist, otherwise the result of `process_chunks`. -/
def mainProcess (fileExists hasKey : Bool) (chunks : List Chunk) (oracle : Nat → ServiceResult) : Nat :=
  if !fileExists then 1 else (process_chunks hasKey chunks oracle).exit

/-- Insert a chunk into an index-sorted list, before the first chunk of
greater-or-equal index (the stable placement Python's `list.sort` uses for
equal keys). -/
def insertChunk (c : Chunk) : List Chunk → List Chunk
  | [] => [c]
  | d :: ds => if c.index ≤ d.index then c :: d :: ds else d :: insertChunk c ds

/-- rebuild.py line 53: `done_chunks.sort(key=lambda x: x['index'])`,
modelled as a stable insertion sort on the `index` field. -/
def sortByIndex : List Chunk → List Chunk
  | [] => []
  | c :: cs => insertChunk c (sortByIndex cs)

/-- Result of one `rebuild_chunks` run: exit code, the written output file
content (`none` when no file is written), and the reported statistics. -/
structure RebuildOut where
  exit : Nat
  output : Option String
  doneTotal : Nat
  errorIdx : List Nat
  pendingIdx : List Nat
deriving DecidableEq

/-- rebuild.py lines 57–59, the body of the concatenation loop:
`if chunk['result']: rebuilt_text += chunk['result']` (a falsy `result` —
`None` or the empty string — is skipped). -/
def rebuildStep (acc : String) (c : Chunk) : String :=
  match c.result with
  | some s => if s.isEmpty then acc else acc ++ s
  | none => acc

/-- rebuild.py `rebuild_chunks` (lines 12–73).  Chunks are bucketed by
status; with no `"done"` chunk the function reports "Nothing to rebuild"
and returns 1; otherwise the `"done"` chunks are sorted by `index` and
their truthy `result` fields concatenated (`if chunk['result']:`) into the
output file, and the function returns 0. -/
def rebuild_chunks (chunks : List Chunk) : RebuildOut :=
  let done_chunks := chunks.filter fun c => c.status == "done"
  let error_chunks := (chunks.filter fun c => c.status == "error").map (·.index)
  let pending_chunks :=
    (chunks.filter fun c => !(c.status == "done") && !(c.status == "error")).map (·.index)
  if done_chunks.isEmpty then
    ⟨1, none, done_chunks.length, error_chunks, pending_chunks⟩
  else
    let rebuilt := (sortByIndex done_chunks).foldl rebuildStep ""
    ⟨0, some rebuilt, done_chunks.length, error_chunks, pending_chunks⟩

/-- rebuild.py `main` (lines 76–92): exit 1 when the JSON file does not
exist, otherwise the result of `rebuild_chunks`. -/
def mainRebuild (fileExists : Bool) (chunks : List Chunk) : Nat :=
  if !fileExists then 1 else (rebuild_chunks chunks).exit

/-- Spec-side rebuild output: the concatenation of the `result` of every
`"done"` chunk in ascending `index` order. -/
def specRebuildOutput (chunks : List Chunk) : String :=
  ((sortByIndex (chunks.filter fun c => c.status == "done")).map
    fun c => c.result.getD "").foldr (· ++ ·) ""

/-- Spec-side rendering of the processing loop, for the persistence claim:
the chunk list after attempting a given list of positions, each position
updated by one `stepChunk` in turn. -/
def applyUpd (oracle : Nat → ServiceResult) (chunks : List Chunk) (pend : List Nat) : List Chunk :=
  pend.foldl (fun cs i => cs.set i (stepChunk (oracle i) (cs.getD i default))) chunks

/-! Characterization of `rfind` (Python `str.rfind`): it returns the
greatest index in `[s, e)` holding the character, or `none`. -/

theorem rfindFrom_eq_none_iff (text : List Char) (c : Char) (s : Nat) :
    ∀ k, rfindFrom text c s k = none ↔ ∀ i, s ≤ i → i < s + k → text[i]? ≠ some c := by
  intro k
  induction k with
  | zero =>
    constructor
    · intro _ i h1 h2 hc; omega
    · intro _; rfl
  | succ k ih =>
    simp only [rfindFrom]
    by_cases hc : text[s + k]? = some c
    · rw [if_pos hc]
      constructor
      · intro h; cases h
      · intro h; exact absurd hc (h (s + k) (by omega) (by omega))
    · rw [if_neg hc, ih]
      constructor
      · intro h i h1 h2
        by_cases hik : i < s + k
        · exact h i h1 hik
        · have he : i = s + k := by omega
          rw [he]; exact hc
      · intro h i h1 h2
        exact h i h1 (by omega)

theorem rfindFrom_spec (text : List Char) (c : Char) (s : Nat) :
    ∀ k p, rfindFrom text c s k = some p →
      s ≤ p ∧ p < s + k ∧ text[p]? = some c ∧
        ∀ i, p < i → i < s + k → text[i]? ≠ some c := by
  intro k
  induction k with
  | zero => intro p h; cases h
  | succ k ih =>
    intro p h
    simp only [rfindFrom] at h
    by_cases hc : text[s + k]? = some c
    · rw [if_pos hc] at h
      cases h
      refine ⟨by omega, by omega, hc, ?_⟩
      intro i h1 h2 hic; omega
    · rw [if_neg hc] at h
      obtain ⟨h1, h2, h3, h4⟩ := ih p h
      refine ⟨h1, by omega, h3, ?_⟩
      intro i hi1 hi2
      by_cases hik : i < s + k
      · exact h4 i hi1 hik
      · have he : i = s + k := by omega
        rw [he]; exact hc

theorem rfind_eq_none_iff (text : List Char) (c : Char) (s e : Nat) :
    rfind text c s e = none ↔ ∀ i, s ≤ i → i < e → text[i]? ≠ some c := by
  rw [rfind, rfindFrom_eq_none_iff]
  constructor
  · intro h i h1 h2; exact h i h1 (by omega)
  · intro h i h1 h2; exact h i h1 (by omega)

theorem rfind_spec (text : List Char) (c : Char) (s e p : Nat)
    (h : rfind text c s e = some p) :
    s ≤ p ∧ p < e ∧ text[p]? = some c ∧ ∀ i, p < i → i < e → text[i]? ≠ some c := by
  obtain ⟨h1, h2, h3, h4⟩ := rfindFrom_spec text c s (e - s) p h
  refine ⟨h1, by omega, h3, ?_⟩
  intro i hi1 hi2; exact h4 i hi1 (by omega)

/-! Bounds on the chosen cut point. -/

theorem start_le_searchLo (chunk_size start : Nat) : start ≤ searchLo chunk_size start := by
  unfold searchLo; exact Nat.le_max_left _ _

theorem half_le_searchLo (chunk_size start : Nat) :
    start + chunk_size - chunk_size / 2 ≤ searchLo chunk_size start := by
  unfold searchLo; exact Nat.le_max_right _ _

theorem bestBreak_le (text : List Char) (chunk_size start : Nat) :
    bestBreak text chunk_size start ≤ start + chunk_size := by
  unfold bestBreak
  repeat' split
  all_goals try omega
  all_goals rename_i p h
  all_goals have := (rfind_spec _ _ _ _ _ h).2.1
  all_goals omega

theorem bestBreak_gt (text : List Char) (chunk_size start : Nat) (hcs : 1 ≤ chunk_size) :
    start < bestBreak text chunk_size start := by
  unfold bestBreak
  repeat' split
  all_goals try omega
  all_goals rename_i p h
  all_goals have h1 := (rfind_spec _ _ _ _ _ h).1
  all_goals have h2 := start_le_searchLo chunk_size start
  all_goals omega

theorem bestBreak_lower (text : List Char) (chunk_size start : Nat) :
    start + chunk_size - chunk_size / 2 ≤ bestBreak text chunk_size start := by
  unfold bestBreak
  repeat' split
  all_goals try omega
  all_goals rename_i p h
  all_goals have h1 := (rfind_spec _ _ _ _ _ h).1
  all_goals have h2 := half_le_searchLo chunk_size start
  all_goals omega

/-! `lastOcc` is the rightmost occurrence in the window, so it coincides
with `rfind`. -/

theorem mem_occsIn (text : List Char) (c : Char) (lo hi p : Nat) :
    p ∈ occsIn text c lo hi ↔ lo ≤ p ∧ p < hi ∧ text[p]? = some c := by
  unfold occsIn
  simp only [List.mem_filter, List.mem_range, decide_eq_true_eq]
  tauto

theorem occsIn_pairwise (text : List Char) (c : Char) (lo hi : Nat) :
    (occsIn text c lo hi).Pairwise (· < ·) :=
  (List.pairwise_lt_range hi).filter _

theorem mem_of_getLast?_eq : ∀ (l : List Nat) (p : Nat), l.getLast? = some p → p ∈ l
  | [a], p, h => by
      rw [List.getLast?_singleton] at h
      cases h
      exact List.mem_singleton_self a
  | a :: b :: t, p, h => by
      rw [List.getLast?_cons_cons] at h
      exact List.mem_cons_of_mem a (mem_of_getLast?_eq (b :: t) p h)

theorem le_of_mem_of_getLast?_eq :
    ∀ (l : List Nat), l.Pairwise (· < ·) → ∀ p, l.getLast? = some p → ∀ q ∈ l, q ≤ p
  | [a], _, p, h, q, hq => by
      rw [List.getLast?_singleton] at h
      cases h
      cases List.mem_singleton.mp hq
      exact Nat.le_refl _
  | a :: b :: t, hpw, p, h, q, hq => by
      rw [List.getLast?_cons_cons] at h
      rw [List.pairwise_cons] at hpw
      rcases List.mem_cons.mp hq with hqa | hqm
      · have hp : p ∈ b :: t := mem_of_getLast?_eq (b :: t) p h
        have : a < p := hpw.1 p hp
        omega
      · exact le_of_mem_of_getLast?_eq (b :: t) hpw.2 p h q hqm

theorem lastOcc_eq_none_iff (text : List Char) (c : Char) (lo hi : Nat) :
    lastOcc text c lo hi = none ↔ ∀ p, lo ≤ p → p < hi → text[p]? ≠ some c := by
  unfold lastOcc
  rw [List.getLast?_eq_none_iff]
  constructor
  · intro h p h1 h2 hc
    have : p ∈ occsIn text c lo hi := (mem_occsIn text c lo hi p).mpr ⟨h1, h2, hc⟩
    rw [h] at this
    cases this
  · intro h
    by_contra hne
    rcases List.exists_mem_of_ne_nil _ hne with ⟨p, hp⟩
    obtain ⟨h1, h2, h3⟩ := (mem_occsIn text c lo hi p).mp hp
    exact h p h1 h2 h3

theorem lastOcc_spec (text : List Char) (c : Char) (lo hi p : Nat)
    (h : lastOcc text c lo hi = some p) :
    lo ≤ p ∧ p < hi ∧ text[p]? = some c ∧ ∀ i, p < i → i < hi → text[i]? ≠ some c := by
  have hm : p ∈ occsIn text c lo hi := mem_of_getLast?_eq _ _ h
  have hmax := le_of_mem_of_getLast?_eq _ (occsIn_pairwise text c lo hi) p h
  obtain ⟨h1, h2, h3⟩ := (mem_occsIn text c lo hi p).mp hm
  refine ⟨h1, h2, h3, ?_⟩
  intro i hi1 hi2 hic
  have hmem : i ∈ occsIn text c lo hi :=
    (mem_occsIn text c lo hi i).mpr ⟨by omega, hi2, hic⟩
  have := hmax i hmem
  omega

theorem rfind_eq_lastOcc (text : List Char) (c : Char) (s e : Nat) :
    rfind text c s e = lastOcc text c s e := by
  cases h1 : rfind text c s e with
  | none =>
    cases h2 : lastOcc text c s e with
    | none => rfl
    | some p =>
      obtain ⟨hp1, hp2, hp3, _⟩ := lastOcc_spec _ _ _ _ _ h2
      exact absurd hp3 ((rfind_eq_none_iff _ _ _ _).mp h1 p hp1 hp2)
  | some p =>
    cases h2 : lastOcc text c s e with
    | none =>
      obtain ⟨hp1, hp2, hp3, _⟩ := rfind_spec _ _ _ _ _ h1
      exact absurd hp3 ((lastOcc_eq_none_iff _ _ _ _).mp h2 p hp1 hp2)
    | some q =>
      obtain ⟨hp1, hp2, hp3, hp4⟩ := rfind_spec _ _ _ _ _ h1
      obtain ⟨hq1, hq2, hq3, hq4⟩ := lastOcc_spec _ _ _ _ _ h2
      congr 1
      by_contra hne
      rcases Nat.lt_or_ge p q with hlt | hge
      · exact hp4 q hlt hq2 hq3
      · have hgt : q < p := by omega
        exact hq4 p hgt hp2 hp3

theorem bestBreak_eq_specCut (text : List Char) (chunk_size start : Nat) :
    bestBreak text chunk_size start = specCut text chunk_size start := by
  simp only [bestBreak, specCut, rfind_eq_lastOcc]

/-! Invariants of the chunking loop. -/

theorem chunkAux_eq_nil_of_le (text : List Char) (chunk_size start : Nat)
    (h : text.length ≤ start) : ∀ fuel, chunkAux text chunk_size fuel start = []
  | 0 => rfl
  | fuel+1 => by
      simp only [chunkAux]
      rw [if_neg (by omega)]

theorem chunkAux_flatten (text : List Char) (chunk_size : Nat) (hcs : 1 ≤ chunk_size) :
    ∀ fuel start, text.length - start ≤ fuel →
      (chunkAux text chunk_size fuel start).flatten = text.drop start := by
  intro fuel
  induction fuel with
  | zero =>
    intro start h
    rw [chunkAux_eq_nil_of_le text chunk_size start (by omega)]
    rw [List.flatten_nil, List.drop_eq_nil_of_le (by omega)]
  | succ fuel ih =>
    intro start h
    simp only [chunkAux]
    by_cases h1 : start < text.length
    · rw [if_pos h1]
      by_cases h2 : text.length ≤ start + chunk_size
      · rw [if_pos h2]
        simp
      · rw [if_neg h2]
        simp only [List.flatten_cons]
        have hgt := bestBreak_gt text chunk_size start hcs
        have hle := bestBreak_le text chunk_size start
        rw [ih (bestBreak text chunk_size start) (by omega)]
        have hdd : text.drop (bestBreak text chunk_size start) =
            (text.drop start).drop (bestBreak text chunk_size start - start) := by
          rw [List.drop_drop]
          congr 1
          omega
        rw [hdd, List.take_append_drop]
    · rw [if_neg h1]
      rw [List.flatten_nil, List.drop_eq_nil_of_le (by omega)]

theorem chunkAux_ne_nil (text : List Char) (chunk_size : Nat) (hcs : 1 ≤ chunk_size) :
    ∀ fuel start seg, seg ∈ chunkAux text chunk_size fuel start → seg ≠ [] := by
  intro fuel
  induction fuel with
  | zero => intro start seg h; cases h
  | succ fuel ih =>
    intro start seg h
    simp only [chunkAux] at h
    by_cases h1 : start < text.length
    · rw [if_pos h1] at h
      by_cases h2 : text.length ≤ start + chunk_size
      · rw [if_pos h2] at h
        have hseg := List.mem_singleton.mp h
        intro hnil
        rw [hnil] at hseg
        have := congrArg List.length hseg
        simp at this
        omega
      · rw [if_neg h2] at h
        rcases List.mem_cons.mp h with hh | hh
        · have hgt := bestBreak_gt text chunk_size start hcs
          intro hnil
          rw [hnil] at hh
          have := congrArg List.length hh
          simp at this
          omega
        · exact ih _ _ hh
    · rw [if_neg h1] at h
      cases h

theorem chunkAux_stable (text : List Char) (chunk_size : Nat) (hcs : 1 ≤ chunk_size) :
    ∀ fuel1 fuel2 start, text.length - start ≤ fuel1 → text.length - start ≤ fuel2 →
      chunkAux text chunk_size fuel1 start = chunkAux text chunk_size fuel2 start := by
  intro fuel1
  induction fuel1 with
  | zero =>
    intro fuel2 start h1 h2
    rw [chunkAux_eq_nil_of_le text chunk_size start (by omega),
      chunkAux_eq_nil_of_le text chunk_size start (by omega)]
  | succ fuel ih =>
    intro fuel2 start h1 h2
    by_cases hs : start < text.length
    · cases fuel2 with
      | zero => omega
      | succ fuel2 =>
        simp only [chunkAux]
        rw [if_pos hs, if_pos hs]
        by_cases h2' : text.length ≤ start + chunk_size
        · rw [if_pos h2', if_pos h2']
        · rw [if_neg h2', if_neg h2']
          have hgt := bestBreak_gt text chunk_size start hcs
          congr 1
          exact ih fuel2 (bestBreak text chunk_size start) (by omega) (by omega)
    · rw [chunkAux_eq_nil_of_le text chunk_size start (by omega),
        chunkAux_eq_nil_of_le text chunk_size start (by omega)]

theorem chunkAux_mid_seg (text : List Char) (chunk_size : Nat) (hcs : 1 ≤ chunk_size) :
    ∀ fuel start pre seg suf, text.length - start ≤ fuel →
      chunkAux text chunk_size fuel start = pre ++ seg :: suf → suf ≠ [] →
      start + pre.flatten.length + chunk_size < text.length ∧
        seg = (text.drop (start + pre.flatten.length)).take
          (bestBreak text chunk_size (start + pre.flatten.length) -
            (start + pre.flatten.length)) := by
  intro fuel
  induction fuel with
  | zero =>
    intro start pre seg suf hf he hsuf
    rw [chunkAux_eq_nil_of_le text chunk_size start (by omega)] at he
    have := congrArg List.length he
    simp at this
    omega
  | succ fuel ih =>
    intro start pre seg suf hf he hsuf
    simp only [chunkAux] at he
    by_cases h1 : start < text.length
    · rw [if_pos h1] at he
      by_cases h2 : text.length ≤ start + chunk_size
      · rw [if_pos h2] at he
        have hlen := congrArg List.length he
        simp at hlen
        have hsnil : suf = [] := List.length_eq_zero.mp (by omega)
        exact absurd hsnil hsuf
      · rw [if_neg h2] at he
        cases pre with
        | nil =>
          rw [List.nil_append] at he
          injection he with he1 he2
          refine ⟨by simpa using (by omega : start + chunk_size < text.length), ?_⟩
          simpa using he1.symm
        | cons p0 pre' =>
          rw [List.cons_append] at he
          injection he with he1 he2
          have hgt := bestBreak_gt text chunk_size start hcs
          have hle := bestBreak_le text chunk_size start
          obtain ⟨ih1, ih2⟩ :=
            ih (bestBreak text chunk_size start) pre' seg suf (by omega) he2 hsuf
          have hp0len : p0.length = bestBreak text chunk_size start - start := by
            rw [← he1, List.length_take, List.length_drop]
            omega
          have hoff : start + ((p0 :: pre').flatten).length =
              bestBreak text chunk_size start + pre'.flatten.length := by
            simp only [List.flatten_cons, List.length_append, hp0len]
            omega
          rw [hoff]
          exact ⟨ih1, ih2⟩
    · rw [if_neg h1] at he
      have := congrArg List.length he
      simp at this
      omega


theorem bestBreak_of_no_boundary (text : List Char) (chunk_size start : Nat)
    (h : hasBoundaryInWindow text chunk_size start = false) :
    bestBreak text chunk_size start = start + chunk_size := by
  have key : ∀ ch, boundaryChar ch = true →
      rfind text ch (searchLo chunk_size start) (start + chunk_size) = none := by
    intro ch hch
    rw [rfind_eq_none_iff]
    intro i h1 h2 hc
    have htrue : hasBoundaryInWindow text chunk_size start = true := by
      unfold hasBoundaryInWindow
      rw [List.any_eq_true]
      refine ⟨i, List.mem_range.mpr h2, ?_⟩
      rw [hc]
      simp [h1, hch]
    rw [h] at htrue
    cases htrue
  unfold bestBreak
  rw [key '\n' (by decide), key '.' (by decide), key ',' (by decide), key ' ' (by decide)]

/-- C1: for every text `T` and every budget `b ≥ 1`, concatenating the
segments returned by `chunk_text(T, b)` in output order reproduces `T`
exactly: no characters are dropped, duplicated, or reordered. -/
theorem C1_chunk_roundtrip (text : List Char) (chunk_size : Nat) (hcs : 1 ≤ chunk_size) :
    (chunk_text text chunk_size).flatten = text := by
  unfold chunk_text
  rw [chunkAux_flatten text chunk_size hcs text.length 0 (by omega)]
  exact List.drop_zero text

theorem C1_chunk_roundtrip_w :
    1 ≤ 10 ∧
      (chunk_text "Hello world. Foo bar,".toList 10).flatten =
        "Hello world. Foo bar,".toList :=
  ⟨by decide, C1_chunk_roundtrip _ _ (by decide)⟩

/-- C3: at every step of `chunk_text` where the remaining text is longer
than the budget, the cut point is immediately after the rightmost
occurrence, within the window `[max(start, ideal − budget·0.5), ideal)`,
of the first boundary class in the strict priority order
newline > period > comma > space that has any occurrence in that window;
if no class has an occurrence there, the cut is exactly at `ideal`
(`specCut` renders that rule; the loop emits `text[start:cut]` and
continues from `cut`). -/
theorem C3_boundary_priority (text : List Char) (chunk_size start fuel : Nat)
    (h : start + chunk_size < text.length) :
    bestBreak text chunk_size start = specCut text chunk_size start ∧
      chunkAux text chunk_size (fuel + 1) start =
        (text.drop start).take (specCut text chunk_size start - start) ::
          chunkAux text chunk_size fuel (specCut text chunk_size start) := by
  refine ⟨bestBreak_eq_specCut text chunk_size start, ?_⟩
  simp only [chunkAux]
  rw [if_pos (by omega), if_neg (by omega), bestBreak_eq_specCut]

theorem C3_boundary_priority_w :
    0 + 10 < "Hello world. Foo bar,".toList.length ∧
      bestBreak "Hello world. Foo bar,".toList 10 0 =
        specCut "Hello world. Foo bar,".toList 10 0 :=
  ⟨by decide, (C3_boundary_priority "Hello world. Foo bar,".toList 10 0 2 (by decide)).1⟩

/-- C6 counterexample: `chunk_text("Hello world. Foo bar,", 10)` does not
return the two segments `"Hello world."`, `" Foo bar,"` the spec's example
claims — the period at position 11 is outside the search window `[5, 10)`
of the first step, so the first cut falls after the space at position 5. -/
theorem C6_example_cex :
    chunk_text "Hello world. Foo bar,".toList 10 ≠
      ["Hello world.".toList, " Foo bar,".toList] := by decide

/-- C6 (amended): `chunk_text("Hello world. Foo bar,", 10)` returns
exactly three segments: `"Hello "`, then `"world."`, then `" Foo bar,"`. -/
theorem C6_example_amended :
    chunk_text "Hello world. Foo bar,".toList 10 =
      ["Hello ".toList, "world.".toList, " Foo bar,".toList] := by decide

/-- C7: for every text and budget `b ≥ 1`, every segment produced by
`chunk_text` except the last has length in `[b·0.5, b]` (rendered as
`⌈b/2⌉ = (b+1)/2 ≤ length ≤ b`), and has length exactly `b` when no
boundary character exists in that step's search window (the segment
starting at offset `pre.flatten.length`). -/
theorem C7_budget_soft (text : List Char) (chunk_size : Nat) (hcs : 1 ≤ chunk_size)
    (pre : List (List Char)) (seg : List Char) (suf : List (List Char))
    (hsplit : chunk_text text chunk_size = pre ++ seg :: suf) (hsuf : suf ≠ []) :
    ((chunk_size + 1) / 2 ≤ seg.length ∧ seg.length ≤ chunk_size) ∧
      (hasBoundaryInWindow text chunk_size pre.flatten.length = true ∨
        seg.length = chunk_size) := by
  obtain ⟨hlt, hseg⟩ :=
    chunkAux_mid_seg text chunk_size hcs text.length 0 pre seg suf (by omega) hsplit hsuf
  simp only [Nat.zero_add] at hlt hseg
  have h2 := bestBreak_le text chunk_size pre.flatten.length
  have h3 := bestBreak_lower text chunk_size pre.flatten.length
  have hlen : seg.length =
      bestBreak text chunk_size pre.flatten.length - pre.flatten.length := by
    rw [hseg, List.length_take, List.length_drop]
    omega
  refine ⟨⟨by omega, by omega⟩, ?_⟩
  cases hb : hasBoundaryInWindow text chunk_size pre.flatten.length with
  | true => exact Or.inl rfl
  | false =>
    right
    rw [hlen, bestBreak_of_no_boundary text chunk_size pre.flatten.length hb]
    omega

theorem C7_budget_soft_w :
    (1 ≤ 10 ∧
        chunk_text "Hello world. Foo bar,".toList 10 =
          [] ++ "Hello ".toList :: ["world.".toList, " Foo bar,".toList] ∧
        (["world.".toList, " Foo bar,".toList] : List (List Char)) ≠ []) ∧
      (((10 + 1) / 2 ≤ "Hello ".toList.length ∧ "Hello ".toList.length ≤ 10) ∧
        (hasBoundaryInWindow "Hello world. Foo bar,".toList 10
            ([] : List (List Char)).flatten.length = true ∨
          "Hello ".toList.length = 10)) :=
  ⟨⟨by decide, by decide, by decide⟩,
    C7_budget_soft "Hello world. Foo bar,".toList 10 (by decide) [] "Hello ".toList
      ["world.".toList, " Foo bar,".toList] (by decide) (by decide)⟩

/-- C8: under the precondition `budget ≥ 1`, `chunk_text` terminates on
every input text — the start position strictly increases at every loop
iteration (the cut is always past `start`), so the fuel `text.length` of
the embedding suffices and any larger fuel computes the same result — and
never emits an empty segment. -/
theorem C8_termination (text : List Char) (chunk_size : Nat) (hcs : 1 ≤ chunk_size) :
    (∀ start, start < bestBreak text chunk_size start) ∧
      (∀ seg ∈ chunk_text text chunk_size, seg ≠ []) ∧
      (∀ fuel, text.length ≤ fuel →
        chunkAux text chunk_size fuel 0 = chunk_text text chunk_size) := by
  refine ⟨fun start => bestBreak_gt text chunk_size start hcs, ?_, ?_⟩
  · intro seg h
    exact chunkAux_ne_nil text chunk_size hcs text.length 0 seg h
  · intro fuel h
    exact chunkAux_stable text chunk_size hcs fuel text.length 0 (by omega) (by omega)

theorem C8_termination_w :
    1 ≤ 10 ∧ 0 < bestBreak "Hello world. Foo bar,".toList 10 0 :=
  ⟨by decide, (C8_termination "Hello world. Foo bar,".toList 10 (by decide)).1 0⟩

/-! Invariants of the processing loop. -/

theorem getD_set_of_lt (l : List Chunk) (i : Nat) (a : Chunk) (h : i < l.length) :
    (l.set i a).getD i default = a := by
  rw [List.getD_eq_getElem?_getD, List.getElem?_set_self h]
  rfl

theorem getD_set_of_ne (l : List Chunk) (i j : Nat) (a : Chunk) (h : i ≠ j) :
    (l.set i a).getD j default = l.getD j default := by
  rw [List.getD_eq_getElem?_getD, List.getElem?_set_ne h, ← List.getD_eq_getElem?_getD]

theorem applyUpd_nil (oracle : Nat → ServiceResult) (chunks : List Chunk) :
    applyUpd oracle chunks [] = chunks := rfl

theorem applyUpd_cons (oracle : Nat → ServiceResult) (chunks : List Chunk) (i : Nat) (l : List Nat) :
    applyUpd oracle chunks (i :: l) =
      applyUpd oracle (chunks.set i (stepChunk (oracle i) (chunks.getD i default))) l := rfl

theorem processPending_calls (oracle : Nat → ServiceResult) :
    ∀ pending st, (processPending oracle pending st).calls = st.calls ++ pending := by
  intro pending
  induction pending with
  | nil => intro st; simp [processPending]
  | cons i rest ih =>
    intro st
    simp only [processPending]
    rw [ih]
    simp

theorem processPending_chunks (oracle : Nat → ServiceResult) :
    ∀ pending st, (processPending oracle pending st).chunks = applyUpd oracle st.chunks pending := by
  intro pending
  induction pending with
  | nil => intro st; rfl
  | cons i rest ih =>
    intro st
    simp only [processPending]
    rw [ih, applyUpd_cons]

theorem processPending_saves (oracle : Nat → ServiceResult) :
    ∀ pending st, (processPending oracle pending st).saves =
      st.saves ++ (List.range pending.length).map
        (fun k => applyUpd oracle st.chunks (pending.take (k+1))) := by
  intro pending
  induction pending with
  | nil => intro st; simp [processPending]
  | cons i rest ih =>
    intro st
    simp only [processPending]
    rw [ih]
    simp only [List.length_cons, List.range_succ_eq_map, List.map_cons, List.map_map,
      List.append_assoc, List.singleton_append]
    congr 1

theorem applyUpd_getD_of_not_mem (oracle : Nat → ServiceResult) :
    ∀ pend chunks i, i ∉ pend →
      (applyUpd oracle chunks pend).getD i default = chunks.getD i default := by
  intro pend
  induction pend with
  | nil => intro chunks i _; rfl
  | cons j rest ih =>
    intro chunks i h
    rw [applyUpd_cons, ih _ i (fun hm => h (List.mem_cons_of_mem j hm))]
    exact getD_set_of_ne _ _ _ _ (fun hji => h (hji ▸ List.mem_cons_self j rest))

theorem applyUpd_getD_of_mem (oracle : Nat → ServiceResult) :
    ∀ pend chunks i, pend.Nodup → i ∈ pend → i < chunks.length →
      (applyUpd oracle chunks pend).getD i default =
        stepChunk (oracle i) (chunks.getD i default) := by
  intro pend
  induction pend with
  | nil => intro chunks i _ h _; cases h
  | cons j rest ih =>
    intro chunks i hnd hm hlen
    obtain ⟨hj, hrest⟩ := List.nodup_cons.mp hnd
    rcases List.mem_cons.mp hm with rfl | hmem
    · rw [applyUpd_cons, applyUpd_getD_of_not_mem oracle rest _ i hj]
      exact getD_set_of_lt _ _ _ hlen
    · have hne : i ≠ j := fun hij => hj (hij ▸ hmem)
      rw [applyUpd_cons, ih _ i hrest hmem (by rw [List.length_set]; exact hlen)]
      rw [getD_set_of_ne _ _ _ _ (fun hji => hne hji.symm)]

theorem stepChunk_ok_ne_empty (t : String) (c : Chunk) (ht : t ≠ "") :
    stepChunk (.ok t) c = { c with status := "done", result := some t, error := none } := by
  have : t.isEmpty = false := by
    rw [Bool.eq_false_iff]
    intro hc
    exact ht ((String.isEmpty_iff t).mp hc)
  simp [stepChunk, process_chunk, truthy, this]

theorem stepChunk_ok_empty (c : Chunk) :
    stepChunk (.ok "") c = { c with status := "error", error := none } := by
  simp only [stepChunk, process_chunk, truthy]
  rfl

theorem stepChunk_err (m : String) (c : Chunk) :
    stepChunk (.err m) c = { c with status := "error", error := some m } := by
  simp [stepChunk, process_chunk, truthy]

theorem pendingOf_nodup (chunks : List Chunk) : (pendingOf chunks).Nodup :=
  (List.nodup_range chunks.length).filter _

theorem mem_pendingOf (chunks : List Chunk) (i : Nat) :
    i ∈ pendingOf chunks ↔ i < chunks.length ∧ (chunks.getD i default).status ≠ "done" := by
  unfold pendingOf
  simp only [List.mem_filter, List.mem_range, Bool.not_eq_true']
  constructor
  · rintro ⟨h1, h2⟩
    exact ⟨h1, by simpa using h2⟩
  · rintro ⟨h1, h2⟩
    exact ⟨h1, by simpa using h2⟩

theorem process_chunks_no_pending (chunks : List Chunk) (oracle : Nat → ServiceResult)
    (h : pendingOf chunks = []) :
    process_chunks true chunks oracle = ⟨0, ⟨chunks, [], [], 0, 0, []⟩⟩ := by
  simp [process_chunks, h]

theorem process_chunks_final (chunks : List Chunk) (oracle : Nat → ServiceResult)
    (h : pendingOf chunks ≠ []) :
    process_chunks true chunks oracle =
      ⟨0, processPending oracle (pendingOf chunks) ⟨chunks, [], [], doneCount chunks, 0, []⟩⟩ := by
  have : (pendingOf chunks).isEmpty = false := by
    rw [Bool.eq_false_iff]
    intro hc
    exact h (List.isEmpty_iff.mp hc)
  simp [process_chunks, this]

/-- C2: a processing run attempts exactly the segments whose status is not
`"done"` (both `"pending"` and `"error"`), in ascending index order (the
call trace equals the filtered position list, which is strictly
increasing); a segment already `"done"` is never resubmitted, and if no
non-done segment exists the run reports success immediately (exit 0) with
no service calls. -/
theorem C2_pending_scan (chunks : List Chunk) (oracle : Nat → ServiceResult) :
    (process_chunks true chunks oracle).final.calls = pendingOf chunks ∧
      List.Pairwise (· < ·) (process_chunks true chunks oracle).final.calls ∧
      (∀ i ∈ (process_chunks true chunks oracle).final.calls,
        (chunks.getD i default).status ≠ "done") ∧
      (pendingOf chunks = [] →
        (process_chunks true chunks oracle).exit = 0 ∧
          (process_chunks true chunks oracle).final.calls = []) := by
  have hcalls : (process_chunks true chunks oracle).final.calls = pendingOf chunks := by
    by_cases h : pendingOf chunks = []
    · rw [process_chunks_no_pending chunks oracle h, h]
    · rw [process_chunks_final chunks oracle h]
      simpa using processPending_calls oracle (pendingOf chunks) ⟨chunks, [], [], doneCount chunks, 0, []⟩
  refine ⟨hcalls, ?_, ?_, ?_⟩
  · rw [hcalls]
    exact (List.pairwise_lt_range chunks.length).filter _
  · intro i hi
    rw [hcalls] at hi
    exact ((mem_pendingOf chunks i).mp hi).2
  · intro h
    rw [process_chunks_no_pending chunks oracle h]
    exact ⟨rfl, rfl⟩

theorem C2_pending_scan_w :
    (process_chunks true
        [⟨0, "a", "done", some "A", none⟩, ⟨1, "b", "pending", none, none⟩]
        (fun _ => ServiceResult.ok "X")).final.calls =
      pendingOf [⟨0, "a", "done", some "A", none⟩, ⟨1, "b", "pending", none, none⟩] :=
  (C2_pending_scan _ (fun _ => ServiceResult.ok "X")).1

/-- C4 counterexample: the claim says a successful service call always
marks the segment `"done"`; but when the service succeeds with an empty
output (`if result:` is Python truthiness), the code takes the failure
branch and marks the segment `"error"` with `error = None`. -/
theorem C4_per_segment_cex :
    ((process_chunks true [⟨0, "x", "pending", none, none⟩]
        (fun _ => ServiceResult.ok "")).final.chunks.getD 0 default).status ≠ "done" ∧
      ((process_chunks true [⟨0, "x", "pending", none, none⟩]
          (fun _ => ServiceResult.ok "")).final.chunks.getD 0 default).status = "error" := by
  constructor
  · decide
  · decide

/-- C4 (amended): in a processing run, when the external service call for
a pending segment succeeds with a non-empty output the segment's status is
set to `"done"`, its result is set to the service output and its
error detail is cleared; when the call fails the status is set to
`"error"`, the error detail is set to the failure description and the
result field is left unchanged; when the call succeeds with an empty
output the status is set to `"error"` with the error detail cleared and
the result field left unchanged.  In every case the Job is persisted
immediately after the segment, before the next one is attempted: the k-th
saved snapshot is the chunk list with exactly the first k+1 attempted
segments updated. -/
theorem C4_per_segment (chunks : List Chunk) (oracle : Nat → ServiceResult) (i : Nat)
    (hi : i < chunks.length) (hnd : (chunks.getD i default).status ≠ "done") :
    (∀ t, oracle i = .ok t → t ≠ "" →
        (process_chunks true chunks oracle).final.chunks.getD i default =
          { chunks.getD i default with status := "done", result := some t, error := none }) ∧
      (∀ m, oracle i = .err m →
        (process_chunks true chunks oracle).final.chunks.getD i default =
          { chunks.getD i default with status := "error", error := some m }) ∧
      (oracle i = .ok "" →
        (process_chunks true chunks oracle).final.chunks.getD i default =
          { chunks.getD i default with status := "error", error := none }) ∧
      (process_chunks true chunks oracle).final.chunks = applyUpd oracle chunks (pendingOf chunks) ∧
      (process_chunks true chunks oracle).final.saves.length = (pendingOf chunks).length ∧
      (∀ k, k < (pendingOf chunks).length →
        (process_chunks true chunks oracle).final.saves.getD k [] =
          applyUpd oracle chunks ((pendingOf chunks).take (k+1))) := by
  have hmem : i ∈ pendingOf chunks := (mem_pendingOf chunks i).mpr ⟨hi, hnd⟩
  have hne : pendingOf chunks ≠ [] := fun h => by rw [h] at hmem; cases hmem
  have hrun := process_chunks_final chunks oracle hne
  have hchunks : (process_chunks true chunks oracle).final.chunks =
      applyUpd oracle chunks (pendingOf chunks) := by
    rw [hrun]
    exact processPending_chunks oracle (pendingOf chunks) ⟨chunks, [], [], doneCount chunks, 0, []⟩
  have hget : (process_chunks true chunks oracle).final.chunks.getD i default =
      stepChunk (oracle i) (chunks.getD i default) := by
    rw [hchunks]
    exact applyUpd_getD_of_mem oracle (pendingOf chunks) chunks i (pendingOf_nodup chunks) hmem hi
  have hsaves : (process_chunks true chunks oracle).final.saves =
      (List.range (pendingOf chunks).length).map
        (fun k => applyUpd oracle chunks ((pendingOf chunks).take (k+1))) := by
    rw [hrun]
    simpa using processPending_saves oracle (pendingOf chunks) ⟨chunks, [], [], doneCount chunks, 0, []⟩
  refine ⟨?_, ?_, ?_, hchunks, ?_, ?_⟩
  · intro t ht htne
    rw [hget, ht, stepChunk_ok_ne_empty t _ htne]
  · intro m hm
    rw [hget, hm, stepChunk_err]
  · intro h
    rw [hget, h, stepChunk_ok_empty]
  · rw [hsaves, List.length_map, List.length_range]
  · intro k hk
    rw [hsaves, List.getD_eq_getElem?_getD, List.getElem?_map,
      List.getElem?_range hk]
    rfl

theorem C4_per_segment_w :
    0 < ([⟨0, "x", "pending", none, none⟩] : List Chunk).length ∧
      (([⟨0, "x", "pending", none, none⟩] : List Chunk).getD 0 default).status ≠ "done" ∧
      (process_chunks true [⟨0, "x", "pending", none, none⟩]
          (fun _ => ServiceResult.ok "Hi")).final.chunks.getD 0 default =
        { (([⟨0, "x", "pending", none, none⟩] : List Chunk).getD 0 default) with
            status := "done", result := some "Hi", error := none } :=
  ⟨by decide, by decide,
    (C4_per_segment [⟨0, "x", "pending", none, none⟩] (fun _ => ServiceResult.ok "Hi") 0
        (by decide) (by decide)).1 "Hi" rfl (by decide)⟩

/-- C10: every processing run preserves the invariant that a segment with
status `"done"` has a truthy result (a non-null, non-empty string) — the
illegal state `status = "done"` with `result` null or empty is never
produced, which rebuild.py's per-chunk `if chunk['result']:` check relies
on. -/
theorem C10_done_truthy (chunks : List Chunk) (oracle : Nat → ServiceResult)
    (hinv : ∀ c ∈ chunks, c.status = "done" → truthy c.result = true) :
    ∀ c ∈ (process_chunks true chunks oracle).final.chunks,
      c.status = "done" → truthy c.result = true := by
  have hstep : ∀ (o : ServiceResult) (c : Chunk),
      (stepChunk o c).status = "done" → truthy (stepChunk o c).result = true := by
    intro o c
    cases o with
    | ok t =>
      by_cases ht : t = ""
      · rw [ht, stepChunk_ok_empty]
        intro hdone
        exact absurd (show ("error" : String) = "done" from hdone) (by decide)
      · rw [stepChunk_ok_ne_empty t c ht]
        intro _
        have hfalse : t.isEmpty = false := by
          rw [Bool.eq_false_iff]
          intro hc
          exact ht ((String.isEmpty_iff t).mp hc)
        simp [truthy, hfalse]
    | err m =>
      rw [stepChunk_err]
      intro hdone
      exact absurd (show ("error" : String) = "done" from hdone) (by decide)
  have hupd : ∀ pend cs, (∀ c ∈ cs, c.status = "done" → truthy c.result = true) →
      ∀ c ∈ applyUpd oracle cs pend, c.status = "done" → truthy c.result = true := by
    intro pend
    induction pend with
    | nil => intro cs h; exact h
    | cons j rest ih =>
      intro cs h
      rw [applyUpd_cons]
      refine ih _ ?_
      intro c hc
      rcases List.mem_or_eq_of_mem_set hc with hold | hnew
      · exact h c hold
      · rw [hnew]
        exact hstep _ _
  by_cases h : pendingOf chunks = []
  · rw [process_chunks_no_pending chunks oracle h]
    exact hinv
  · rw [process_chunks_final chunks oracle h,
      processPending_chunks oracle (pendingOf chunks) ⟨chunks, [], [], doneCount chunks, 0, []⟩]
    exact hupd (pendingOf chunks) chunks hinv

theorem C10_done_truthy_w :
    (∀ c ∈ ([⟨0, "x", "pending", none, none⟩] : List Chunk),
        c.status = "done" → truthy c.result = true) ∧
      truthy ((process_chunks true [⟨0, "x", "pending", none, none⟩]
          (fun _ => ServiceResult.ok "Hi")).final.chunks.getD 0 default).result = true :=
  ⟨by decide,
    C10_done_truthy [⟨0, "x", "pending", none, none⟩] (fun _ => ServiceResult.ok "Hi")
      (by decide) _ (by decide) (by decide)⟩

/-! Rebuild invariants. -/

theorem rebuildStep_eq_append (acc : String) (c : Chunk) :
    rebuildStep acc c = acc ++ c.result.getD "" := by
  unfold rebuildStep
  cases hr : c.result with
  | none => simp
  | some s =>
    by_cases hs : s.isEmpty = true
    · have he : s = "" := (String.isEmpty_iff s).mp hs
      simp [hs, he]
    · simp [hs]

theorem rebuildFold_eq (l : List Chunk) :
    ∀ acc : String,
      l.foldl rebuildStep acc = acc ++ (l.map fun c => c.result.getD "").foldr (· ++ ·) "" := by
  induction l with
  | nil => intro acc; simp
  | cons c rest ih =>
    intro acc
    simp only [List.foldl_cons, List.map_cons, List.foldr_cons]
    rw [rebuildStep_eq_append, ih, String.append_assoc]

theorem mem_insertChunk (c x : Chunk) : ∀ l, x ∈ insertChunk c l → x = c ∨ x ∈ l
  | [], h => by
      simp only [insertChunk] at h
      exact Or.inl (List.mem_singleton.mp h)
  | d :: ds, h => by
      simp only [insertChunk] at h
      by_cases hle : c.index ≤ d.index
      · rw [if_pos hle] at h
        rcases List.mem_cons.mp h with rfl | h2
        · exact Or.inl rfl
        · exact Or.inr h2
      · rw [if_neg hle] at h
        rcases List.mem_cons.mp h with rfl | h2
        · exact Or.inr (List.mem_cons_self _ _)
        · rcases mem_insertChunk c x ds h2 with h3 | h3
          · exact Or.inl h3
          · exact Or.inr (List.mem_cons_of_mem _ h3)

theorem insertChunk_pairwise (c : Chunk) :
    ∀ l, l.Pairwise (fun a b => a.index ≤ b.index) →
      (insertChunk c l).Pairwise (fun a b => a.index ≤ b.index)
  | [], _ => by simp [insertChunk]
  | d :: ds, h => by
      simp only [insertChunk]
      rw [List.pairwise_cons] at h
      by_cases hle : c.index ≤ d.index
      · rw [if_pos hle, List.pairwise_cons]
        constructor
        · intro x hx
          rcases List.mem_cons.mp hx with rfl | hx2
          · exact hle
          · exact le_trans hle (h.1 x hx2)
        · rw [List.pairwise_cons]
          exact h
      · rw [if_neg hle, List.pairwise_cons]
        constructor
        · intro x hx
          rcases mem_insertChunk c x ds hx with rfl | hx2
          · omega
          · exact h.1 x hx2
        · exact insertChunk_pairwise c ds h.2

theorem sortByIndex_pairwise :
    ∀ l : List Chunk, (sortByIndex l).Pairwise (fun a b => a.index ≤ b.index)
  | [] => List.Pairwise.nil
  | c :: cs => insertChunk_pairwise c (sortByIndex cs) (sortByIndex_pairwise cs)

theorem filter_done_isEmpty_iff (chunks : List Chunk) :
    (chunks.filter fun c => c.status == "done").isEmpty = true ↔
      ∀ c ∈ chunks, c.status ≠ "done" := by
  rw [List.isEmpty_iff, List.filter_eq_nil_iff]
  constructor
  · intro h c hc heq
    exact h c hc (by simp [heq])
  · intro h c hc hb
    exact h c hc (by simpa using hb)

theorem rebuild_chunks_of_no_done (chunks : List Chunk)
    (h : (chunks.filter fun c => c.status == "done").isEmpty = true) :
    (rebuild_chunks chunks).exit = 1 ∧ (rebuild_chunks chunks).output = none := by
  constructor <;> simp [rebuild_chunks, h]

theorem rebuild_chunks_of_done (chunks : List Chunk)
    (h : (chunks.filter fun c => c.status == "done").isEmpty = false) :
    (rebuild_chunks chunks).exit = 0 ∧
      (rebuild_chunks chunks).output = some (specRebuildOutput chunks) := by
  constructor
  · simp [rebuild_chunks, h]
  · simp only [rebuild_chunks, h, Bool.false_eq_true, if_false]
    rw [rebuildFold_eq, String.empty_append]
    rfl

theorem rebuild_chunks_errorIdx (chunks : List Chunk) :
    (rebuild_chunks chunks).errorIdx =
      (chunks.filter fun c => c.status == "error").map (·.index) := by
  by_cases h : (chunks.filter fun c => c.status == "done").isEmpty = true
  · simp [rebuild_chunks, h]
  · simp [rebuild_chunks, h]

theorem rebuild_chunks_pendingIdx (chunks : List Chunk) :
    (rebuild_chunks chunks).pendingIdx =
      (chunks.filter fun c => !(c.status == "done") && !(c.status == "error")).map (·.index) := by
  by_cases h : (chunks.filter fun c => c.status == "done").isEmpty = true
  · simp [rebuild_chunks, h]
  · simp [rebuild_chunks, h]

/-- C5: rebuild fails with the explicit "nothing to rebuild" condition
(exit 1) if and only if the Job contains zero `"done"` segments; otherwise
it succeeds (exit 0), producing as output exactly the concatenation of the
`result` of every `"done"` segment in ascending `index` order (the sorted
done list is pairwise ascending on `index`), and reports the indices of
`"error"` and non-done-non-error (pending) segments — it never fails
merely because some segments are incomplete. -/
theorem C5_rebuild (chunks : List Chunk) :
    ((rebuild_chunks chunks).exit = 1 ↔ ∀ c ∈ chunks, c.status ≠ "done") ∧
      ((∃ c ∈ chunks, c.status = "done") →
        (rebuild_chunks chunks).exit = 0 ∧
          (rebuild_chunks chunks).output = some (specRebuildOutput chunks)) ∧
      (sortByIndex (chunks.filter fun c => c.status == "done")).Pairwise
        (fun a b => a.index ≤ b.index) ∧
      (rebuild_chunks chunks).errorIdx =
        (chunks.filter fun c => c.status == "error").map (·.index) ∧
      (rebuild_chunks chunks).pendingIdx =
        (chunks.filter fun c => !(c.status == "done") && !(c.status == "error")).map (·.index) := by
  refine ⟨?_, ?_, sortByIndex_pairwise _, rebuild_chunks_errorIdx chunks,
    rebuild_chunks_pendingIdx chunks⟩
  · by_cases h : (chunks.filter fun c => c.status == "done").isEmpty = true
    · rw [(rebuild_chunks_of_no_done chunks h).1]
      simp only [true_iff]
      exact (filter_done_isEmpty_iff chunks).mp h
    · have h' : (chunks.filter fun c => c.status == "done").isEmpty = false :=
        Bool.eq_false_iff.mpr h
      rw [(rebuild_chunks_of_done chunks h').1]
      constructor
      · intro h01; cases h01
      · intro hall
        exact absurd ((filter_done_isEmpty_iff chunks).mpr hall) h
  · rintro ⟨c, hc, hdone⟩
    have h' : (chunks.filter fun c => c.status == "done").isEmpty = false := by
      rw [Bool.eq_false_iff]
      intro hemp
      exact (filter_done_isEmpty_iff chunks).mp hemp c hc hdone
    exact rebuild_chunks_of_done chunks h'

theorem C5_rebuild_w :
    (∃ c ∈ ([⟨0, "t0", "done", some "A", none⟩, ⟨1, "t1", "error", none, some "boom"⟩,
        ⟨2, "t2", "done", some "B", none⟩] : List Chunk), c.status = "done") ∧
      ((rebuild_chunks [⟨0, "t0", "done", some "A", none⟩,
          ⟨1, "t1", "error", none, some "boom"⟩, ⟨2, "t2", "done", some "B", none⟩]).exit = 0 ∧
        (rebuild_chunks [⟨0, "t0", "done", some "A", none⟩,
            ⟨1, "t1", "error", none, some "boom"⟩, ⟨2, "t2", "done", some "B", none⟩]).output =
          some (specRebuildOutput [⟨0, "t0", "done", some "A", none⟩,
            ⟨1, "t1", "error", none, some "boom"⟩, ⟨2, "t2", "done", some "B", none⟩])) ∧
      specRebuildOutput [⟨0, "t0", "done", some "A", none⟩,
          ⟨1, "t1", "error", none, some "boom"⟩, ⟨2, "t2", "done", some "B", none⟩] = "AB" ∧
      (rebuild_chunks [⟨0, "t0", "done", some "A", none⟩,
          ⟨1, "t1", "error", none, some "boom"⟩, ⟨2, "t2", "done", some "B", none⟩]).errorIdx = [1] :=
  ⟨by decide,
    (C5_rebuild [⟨0, "t0", "done", some "A", none⟩, ⟨1, "t1", "error", none, some "boom"⟩,
        ⟨2, "t2", "done", some "B", none⟩]).2.1 (by decide),
    by decide, by decide⟩

/-! Exit codes of the two entry points. -/

theorem process_chunks_exit_zero (chunks : List Chunk) (oracle : Nat → ServiceResult) :
    (process_chunks true chunks oracle).exit = 0 := by
  by_cases h : pendingOf chunks = []
  · rw [process_chunks_no_pending chunks oracle h]
  · rw [process_chunks_final chunks oracle h]

/-- C9 counterexample: no entry point gives the three outcomes three
distinct exit codes.  process.py exits 0 both when there is nothing to do
(all chunks done) and after a successful run; rebuild.py exits 1 both when
the file is not found and when there is nothing to rebuild. -/
theorem C9_exit_codes_cex :
    mainProcess true true [⟨0, "a", "done", some "A", none⟩] (fun _ => ServiceResult.ok "X") = 0 ∧
      mainProcess true true [⟨0, "a", "pending", none, none⟩] (fun _ => ServiceResult.ok "X") = 0 ∧
      mainRebuild false [⟨0, "a", "done", some "A", none⟩] = 1 ∧
      mainRebuild true [⟨0, "a", "pending", none, none⟩] = 1 := by
  refine ⟨by decide, by decide, by decide, by decide⟩

/-- C9 (amended): process.py exits 1 when the JSON file is not found, and
0 both when there is nothing to do and when the run completes — those two
outcomes share exit code 0.  rebuild.py exits 1 when the file is not found
and 1 when there is nothing to rebuild — those two outcomes share exit
code 1 — and 0 on success.  Neither entry point distinguishes all three
outcomes. -/
theorem C9_exit_codes_amended (chunks : List Chunk) (oracle : Nat → ServiceResult) :
    mainProcess false true chunks oracle = 1 ∧
      mainProcess true true chunks oracle = 0 ∧
      mainRebuild false chunks = 1 ∧
      ((∀ c ∈ chunks, c.status ≠ "done") → mainRebuild true chunks = 1) ∧
      ((∃ c ∈ chunks, c.status = "done") → mainRebuild true chunks = 0) := by
  refine ⟨rfl, ?_, rfl, ?_, ?_⟩
  · show (process_chunks true chunks oracle).exit = 0
    exact process_chunks_exit_zero chunks oracle
  · intro hall
    show (rebuild_chunks chunks).exit = 1
    exact (rebuild_chunks_of_no_done chunks ((filter_done_isEmpty_iff chunks).mpr hall)).1
  · rintro ⟨c, hc, hdone⟩
    show (rebuild_chunks chunks).exit = 0
    refine (rebuild_chunks_of_done chunks ?_).1
    rw [Bool.eq_false_iff]
    intro hemp
    exact (filter_done_isEmpty_iff chunks).mp hemp c hc hdone

theorem C9_exit_codes_amended_w :
    (∀ c ∈ ([⟨0, "a", "pending", none, none⟩] : List Chunk), c.status ≠ "done") ∧
      mainRebuild true [⟨0, "a", "pending", none, none⟩] = 1 :=
  ⟨by decide,
    (C9_exit_codes_amended [⟨0, "a", "pending", none, none⟩]
        (fun _ => ServiceResult.ok "X")).2.2.2.1 (by decide)⟩

example : chunk_text "".toList 5 = [] := by decide

example : chunk_text "abcd".toList 10 = ["abcd".toList] := by decide
